import Mathlib

/-
Shallow embedding of the lazytiff TIFF reader core (src/types.rs, src/subfile.rs,
src/lib.rs).  Modelling conventions:
  * Bytes and machine integers are `Nat` (with explicit `< 2 ^ w` bounds where
    overflow matters); signed integers are `Int` produced by an explicit
    two's-complement reinterpretation.
  * The host pointer width (`usize`) is an explicit parameter `usizeBits`;
    the hosts the crate targets use 64.
  * `f32` / `f64` values are represented by their raw bit patterns:
    `f32::from_bits` / `f64::from_bits` are bijections on bit patterns and the
    decoder performs no floating-point arithmetic.
  * The shared seekable byte source (`BufReader<R>`) is modelled as a pure
    `List Nat` of bytes; `read_exact` after an absolute seek is `read_exact`
    below, failing (I/O error) when the requested range runs past the end.
  * Fallible Rust functions returning `Result` are modelled with `RunResult`;
    a Rust `panic!` / failed `assert_eq!` is the distinguished outcome
    `RunResult.panicked`, which is not a typed error value.
-/

inductive Endianness where
  | Little
  | Big
deriving DecidableEq, Repr

/-- The source's `Rational` type alias (`Ratio<u32>` built with `new_raw`,
i.e. an unreduced numerator/denominator pair of `u32`s). -/
def RationalPair : Type := Nat × Nat

instance : DecidableEq RationalPair := instDecidableEqProd

/-- The source's `SRational` type alias (`Ratio<i32>` built with `new_raw`). -/
def SRationalPair : Type := Int × Int

instance : DecidableEq SRationalPair := instDecidableEqProd

/-- The 12 TIFF 6.0 primitive field types (src/types.rs `enum FieldType`). -/
inductive FieldType where
  | Byte
  | Ascii
  | Short
  | Long
  | Rational
  | SByte
  | Undefined
  | SShort
  | SLong
  | SRational
  | Float
  | Double
deriving DecidableEq, Repr

/-- `FieldType::from_u16` (src/types.rs): resolves a raw type code,
`None` for codes outside 1..=12. -/
def FieldType.from_u16 (field_type_raw : Nat) : Option FieldType :=
  if field_type_raw = 1 then some .Byte
  else if field_type_raw = 2 then some .Ascii
  else if field_type_raw = 3 then some .Short
  else if field_type_raw = 4 then some .Long
  else if field_type_raw = 5 then some .Rational
  else if field_type_raw = 6 then some .SByte
  else if field_type_raw = 7 then some .Undefined
  else if field_type_raw = 8 then some .SShort
  else if field_type_raw = 9 then some .SLong
  else if field_type_raw = 10 then some .SRational
  else if field_type_raw = 11 then some .Float
  else if field_type_raw = 12 then some .Double
  else none

/-- `FieldType::size_of` (src/types.rs): fixed element byte width per type. -/
def FieldType.size_of : FieldType → Nat
  | .Byte => 1
  | .Ascii => 1
  | .Short => 2
  | .Long => 4
  | .Rational => 8
  | .SByte => 1
  | .Undefined => 1
  | .SShort => 2
  | .SLong => 4
  | .SRational => 8
  | .Float => 4
  | .Double => 8

/-- Byte `i` of a buffer; buffers handed to the element decoders always have
exactly the element width, so the default is never consulted on the paths the
code exercises (it models the infallible `try_into().unwrap()` on an
exact-size chunk). -/
def byteAt (c : List Nat) (i : Nat) : Nat := c.getD i 0

/-- `u16::from_le_bytes`. -/
def u16le (c : List Nat) : Nat := byteAt c 0 + 256 * byteAt c 1

/-- `u16::from_be_bytes`. -/
def u16be (c : List Nat) : Nat := 256 * byteAt c 0 + byteAt c 1

/-- `u32::from_le_bytes`. -/
def u32le (c : List Nat) : Nat :=
  byteAt c 0 + 256 * byteAt c 1 + 65536 * byteAt c 2 + 16777216 * byteAt c 3

/-- `u32::from_be_bytes`. -/
def u32be (c : List Nat) : Nat :=
  16777216 * byteAt c 0 + 65536 * byteAt c 1 + 256 * byteAt c 2 + byteAt c 3

/-- `u64::from_le_bytes`. -/
def u64le (c : List Nat) : Nat :=
  byteAt c 0 + 256 * byteAt c 1 + 65536 * byteAt c 2 + 16777216 * byteAt c 3
    + 4294967296 * byteAt c 4 + 1099511627776 * byteAt c 5
    + 281474976710656 * byteAt c 6 + 72057594037927936 * byteAt c 7

/-- `u64::from_be_bytes`. -/
def u64be (c : List Nat) : Nat :=
  72057594037927936 * byteAt c 0 + 281474976710656 * byteAt c 1
    + 1099511627776 * byteAt c 2 + 4294967296 * byteAt c 3
    + 16777216 * byteAt c 4 + 65536 * byteAt c 5 + 256 * byteAt c 6 + byteAt c 7

/-- Endianness-dispatched u16 read (the per-arm `from_le_bytes`/`from_be_bytes`
match that the source repeats at each decode site). -/
def u16e : Endianness → List Nat → Nat
  | .Little, c => u16le c
  | .Big, c => u16be c

/-- Endianness-dispatched u32 read. -/
def u32e : Endianness → List Nat → Nat
  | .Little, c => u32le c
  | .Big, c => u32be c

/-- Endianness-dispatched u64 read. -/
def u64e : Endianness → List Nat → Nat
  | .Little, c => u64le c
  | .Big, c => u64be c

/-- Two's-complement reinterpretation of a `w`-bit unsigned value as signed
(Rust's `as i8` and `iN::from_le_bytes`/`from_be_bytes`). -/
def toSigned (w : Nat) (n : Nat) : Int :=
  if n < 2 ^ (w - 1) then (n : Int) else (n : Int) - 2 ^ w

/-- Single-byte element decode (Byte / Ascii / Undefined chunks). -/
def byte_elem (c : List Nat) : Nat := byteAt c 0

/-- `chunk[0] as i8` (SByte chunks). -/
def sbyte_elem (c : List Nat) : Int := toSigned 8 (byteAt c 0)

/-- `i16::from_le_bytes` / `from_be_bytes` per endianness. -/
def i16e (e : Endianness) (c : List Nat) : Int := toSigned 16 (u16e e c)

/-- `i32::from_le_bytes` / `from_be_bytes` per endianness. -/
def i32e (e : Endianness) (c : List Nat) : Int := toSigned 32 (u32e e c)

/-- `rational_from_le_bytes` / `rational_from_be_bytes` (src/types.rs):
numerator from bytes 0..4, denominator from bytes 4..8, `Ratio::new_raw`
(no reduction, zero denominators preserved). -/
def rational_elem (e : Endianness) (c : List Nat) : RationalPair :=
  (u32e e (c.take 4), u32e e ((c.drop 4).take 4))

/-- `srational_from_le_bytes` / `srational_from_be_bytes` (src/types.rs). -/
def srational_elem (e : Endianness) (c : List Nat) : SRationalPair :=
  (i32e e (c.take 4), i32e e ((c.drop 4).take 4))

/-- `enum FieldValue` (src/types.rs): tagged union of typed value vectors.
Float/Double hold raw bit patterns (see header comment). -/
inductive FieldValue where
  | Byte (values : List Nat)
  | Ascii (values : List Nat)
  | Short (values : List Nat)
  | Long (values : List Nat)
  | Rational (values : List RationalPair)
  | SByte (values : List Int)
  | Undefined (values : List Nat)
  | SShort (values : List Int)
  | SLong (values : List Int)
  | SRational (values : List SRationalPair)
  | Float (values : List Nat)
  | Double (values : List Nat)
deriving DecidableEq

/-- `FieldValue::field_type` (src/types.rs). -/
def FieldValue.field_type : FieldValue → FieldType
  | .Byte _ => .Byte
  | .Ascii _ => .Ascii
  | .Short _ => .Short
  | .Long _ => .Long
  | .Rational _ => .Rational
  | .SByte _ => .SByte
  | .Undefined _ => .Undefined
  | .SShort _ => .SShort
  | .SLong _ => .SLong
  | .SRational _ => .SRational
  | .Float _ => .Float
  | .Double _ => .Double

/-- `FieldValue::count` (src/types.rs): length of the value vector. -/
def FieldValue.count : FieldValue → Nat
  | .Byte v => v.length
  | .Ascii v => v.length
  | .Short v => v.length
  | .Long v => v.length
  | .Rational v => v.length
  | .SByte v => v.length
  | .Undefined v => v.length
  | .SShort v => v.length
  | .SLong v => v.length
  | .SRational v => v.length
  | .Float v => v.length
  | .Double v => v.length

/-- Outcome of running a fallible piece of the reader.  `ok` and the two error
constructors model `Result` values surfaced to the caller (`TiffReadError` /
`ParseError` / boxed errors); `panicked` models a Rust panic (a failed
`assert_eq!` or `unwrap`), which aborts and is NOT a typed error value. -/
inductive RunResult (α : Type) where
  | ok (value : α)
  | ioError
  | parseError
  | panicked
deriving DecidableEq

/-- `compute_value_buffer_size` (src/types.rs): `usize::try_from(count)`
followed by `element_size.checked_mul(count)`.  `usizeBits` is the host
pointer width; `try_from` fails iff `count` does not fit in `usize`, and
`checked_mul` yields `None` iff the product does not fit. -/
def compute_value_buffer_size (usizeBits : Nat) (field_type : FieldType) (count : Nat) : Option Nat :=
  if count < 2 ^ usizeBits then
    if field_type.size_of * count < 2 ^ usizeBits then
      some (field_type.size_of * count)
    else
      none
  else
    none

/-- Fuel-indexed worker for `chunks_exact`; fuel `≥ l.length` never runs out
when the chunk size is positive. -/
def chunksExactAux (s : Nat) : Nat → List Nat → List (List Nat)
  | 0, _ => []
  | fuel + 1, l =>
    if s = 0 ∨ l.length < s then []
    else l.take s :: chunksExactAux s fuel (l.drop s)

/-- `slice::chunks_exact(s)` on a byte buffer: the successive complete
`s`-byte chunks, any shorter remainder dropped. -/
def chunksExact (s : Nat) (l : List Nat) : List (List Nat) :=
  chunksExactAux s l.length l

/-- The first `n` successive `s`-byte chunks of a buffer; on a buffer of
length exactly `s * n` this coincides with `chunksExact s` (proved below) and
gives the decoder's chunk sequence in a count-structural form. -/
def chunksOfCnt (s : Nat) : Nat → List Nat → List (List Nat)
  | 0, _ => []
  | n + 1, l => l.take s :: chunksOfCnt s n (l.drop s)

/-- `value_from_chunks` (src/types.rs): per-type, endianness-dispatched map
over the exact chunks, preserving chunk order.  Byte/Ascii/SByte/Undefined
are endianness-insensitive. -/
def value_from_chunks (field_type : FieldType) (chunks : List (List Nat)) (e : Endianness) : FieldValue :=
  match field_type with
  | .Byte => .Byte (chunks.map byte_elem)
  | .Ascii => .Ascii (chunks.map byte_elem)
  | .Short => .Short (chunks.map (u16e e))
  | .Long => .Long (chunks.map (u32e e))
  | .Rational => .Rational (chunks.map (rational_elem e))
  | .SByte => .SByte (chunks.map sbyte_elem)
  | .Undefined => .Undefined (chunks.map byte_elem)
  | .SShort => .SShort (chunks.map (i16e e))
  | .SLong => .SLong (chunks.map (i32e e))
  | .SRational => .SRational (chunks.map (srational_elem e))
  | .Float => .Float (chunks.map (u32e e))
  | .Double => .Double (chunks.map (u64e e))

/-- `value_from_buffer` (src/types.rs): computes the required buffer size
(`None` becomes the typed `ParseError` via `ok_or`), then `assert_eq!`s the
buffer length against it — a mismatch PANICS — and finally decodes the exact
chunks. -/
def value_from_buffer (usizeBits : Nat) (field_type : FieldType) (count : Nat)
    (buffer : List Nat) (e : Endianness) : RunResult FieldValue :=
  match compute_value_buffer_size usizeBits field_type count with
  | none => .parseError
  | some correct_buffer_size =>
    if buffer.length = correct_buffer_size then
      .ok (value_from_chunks field_type (chunksExact field_type.size_of buffer) e)
    else
      .panicked

/-- `enum FieldState` (src/subfile.rs): per-tag lazy value state. -/
inductive FieldState where
  | Local (value : FieldValue)
  | NotLoaded (field_type : FieldType) (count : Nat) (offset : Nat)
  | Loaded (value : FieldValue) (offset : Nat)
  | Unknown (field_type_raw : Nat) (count : Nat) (value_offset_bytes : List Nat)
deriving DecidableEq

/-- `FieldState::from_ifd_entry_data` (src/subfile.rs): resolve the raw type
code (unresolved ⇒ terminal `Unknown`, retaining the 4 inline bytes
verbatim); compute the buffer size (overflow ⇒ typed parse error via
`ok_or`); if it fits in the 4 inline bytes decode immediately (`Local`),
else record the inline bytes as a u32 offset (`NotLoaded`).  The 64-bit host
width is used, matching the targets the crate builds for. -/
def FieldState.from_ifd_entry_data (field_type_raw : Nat) (count : Nat)
    (value_offset_bytes : List Nat) (e : Endianness) : RunResult FieldState :=
  match FieldType.from_u16 field_type_raw with
  | none => .ok (.Unknown field_type_raw count value_offset_bytes)
  | some field_type =>
    match compute_value_buffer_size 64 field_type count with
    | none => .parseError
    | some required_buffer_size =>
      if required_buffer_size ≤ 4 then
        match value_from_buffer 64 field_type count (value_offset_bytes.take required_buffer_size) e with
        | .ok value => .ok (.Local value)
        | .ioError => .ioError
        | .parseError => .parseError
        | .panicked => .panicked
      else
        .NotLoaded field_type count (u32e e value_offset_bytes) |> .ok

/-- `Field::field_type` (src/subfile.rs): the resolved type, `None` for
`Unknown`.  The reader handle inside `Field` carries no information beyond
the byte source and endianness, so a `Field` is modelled by its state with
the source/endianness passed to the operations that use them. -/
def Field.field_type : FieldState → Option FieldType
  | .Local value => some value.field_type
  | .NotLoaded field_type _ _ => some field_type
  | .Loaded value _ => some value.field_type
  | .Unknown _ _ _ => none

/-- `Field::count` (src/subfile.rs). -/
def Field.count : FieldState → Nat
  | .Local value => value.count
  | .NotLoaded _ count _ => count
  | .Loaded value _ => value.count
  | .Unknown _ count _ => count

/-- `Field::get_value_if_local` (src/subfile.rs). -/
def Field.get_value_if_local : FieldState → Option FieldValue
  | .Local value => some value
  | _ => none

/-- `seek(SeekFrom::Start(offset))` followed by `read_exact` of `n` bytes
against the shared byte source: fails (I/O error) iff the file does not hold
`n` bytes from `offset` on. -/
def read_exact (file : List Nat) (offset n : Nat) : Option (List Nat) :=
  if offset + n ≤ file.length then some ((file.drop offset).take n) else none

/-- `Field::load` (src/subfile.rs): no-op on every state but `NotLoaded`;
there it computes the buffer size (overflow ⇒ typed parse error), seeks and
reads exactly that many bytes (failure ⇒ I/O error), decodes, and becomes
`Loaded {value, offset}`.  Returns the resulting field state (the mutated
`self`). -/
def Field.load (file : List Nat) (e : Endianness) : FieldState → RunResult FieldState
  | .NotLoaded field_type count offset =>
    match compute_value_buffer_size 64 field_type count with
    | none => .parseError
    | some required_buffer_size =>
      match read_exact file offset required_buffer_size with
      | none => .ioError
      | some value_buffer =>
        match value_from_buffer 64 field_type count value_buffer e with
        | .ok value => .ok (.Loaded value offset)
        | .ioError => .ioError
        | .parseError => .parseError
        | .panicked => .panicked
  | s => .ok s

/-- `Field::unload` (src/subfile.rs): `Loaded` drops its cached value and
returns to `NotLoaded` with the type, count and offset reconstructed from
the value and the retained offset; no-op on every other state. -/
def Field.unload : FieldState → FieldState
  | .Loaded value offset => .NotLoaded value.field_type value.count offset
  | s => s

/-- `Field::get_value` (src/subfile.rs): `load()` then return the current
value if any, together with the (possibly mutated) state. -/
def Field.get_value (file : List Nat) (e : Endianness) (s : FieldState) :
    RunResult (Option FieldValue × FieldState) :=
  match Field.load file e s with
  | .ok s2 =>
    match s2 with
    | .Local value => .ok (some value, s2)
    | .Loaded value offset => .ok (some value, .Loaded value offset)
    | s2 => .ok (none, s2)
  | .ioError => .ioError
  | .parseError => .parseError
  | .panicked => .panicked

/-- One parsed IFD (`struct Subfile`, src/subfile.rs): the tag/field pairs in
file order (the `BTreeMap` insertion sequence) and the optional next-IFD
offset. -/
structure Subfile where
  fields : List (Nat × FieldState)
  offset_to_next_ifd : Option Nat
deriving DecidableEq

/-- The entry-parsing loop inside `Subfile::new` (src/subfile.rs): each
12-byte record yields tag, raw type code, count and the 4 inline bytes, all
per the file's endianness, and a `FieldState`; any entry failure aborts
subfile construction. -/
def parse_ifd_entries (e : Endianness) : Nat → List Nat → RunResult (List (Nat × FieldState))
  | 0, _ => .ok []
  | n + 1, buf =>
    let entry := buf.take 12
    let tag := u16e e (entry.take 2)
    let field_type_raw := u16e e ((entry.drop 2).take 2)
    let count := u32e e ((entry.drop 4).take 4)
    let value_offset_bytes := (entry.drop 8).take 4
    match FieldState.from_ifd_entry_data field_type_raw count value_offset_bytes e with
    | .ok field_state =>
      match parse_ifd_entries e n (buf.drop 12) with
      | .ok rest => .ok ((tag, field_state) :: rest)
      | .ioError => .ioError
      | .parseError => .parseError
      | .panicked => .panicked
    | .ioError => .ioError
    | .parseError => .parseError
    | .panicked => .panicked

/-- `Subfile::new` (src/subfile.rs): seek to `offset`, read the 2-byte entry
count, read the remaining `12 * count + 4` bytes, parse every directory
entry, and decode the trailing 4 bytes as the next-IFD offset with 0 exposed
as `None`. -/
def Subfile.new (file : List Nat) (e : Endianness) (offset : Nat) : RunResult Subfile :=
  match read_exact file offset 2 with
  | none => .ioError
  | some ifd_entry_count_bytes =>
    let ifd_entry_count := u16e e ifd_entry_count_bytes
    match read_exact file (offset + 2) (12 * ifd_entry_count + 4) with
    | none => .ioError
    | some ifd_remaining_buffer =>
      match parse_ifd_entries e ifd_entry_count ifd_remaining_buffer with
      | .ok fields =>
        let next_ifd_offset_raw := u32e e ((ifd_remaining_buffer.drop (12 * ifd_entry_count)).take 4)
        .ok ⟨fields, if next_ifd_offset_raw ≠ 0 then some next_ifd_offset_raw else none⟩
      | .ioError => .ioError
      | .parseError => .parseError
      | .panicked => .panicked

/-- `struct Header` (src/lib.rs). -/
structure Header where
  endianness : Endianness
  offset_to_first_ifd : Nat
deriving DecidableEq

/-- `Header::from_bytes` (src/lib.rs): the first 4 bytes must be one of the
two byte-order magic sequences (`II\x2A\x00` little, `MM\x00\x2A` big), else
a parse error (`none`); bytes 4..8 decode as the first-IFD offset per the
detected order. -/
def Header.from_bytes (b0 b1 b2 b3 b4 b5 b6 b7 : Nat) : Option Header :=
  if b0 = 73 ∧ b1 = 73 ∧ b2 = 42 ∧ b3 = 0 then
    some ⟨.Little, u32le [b4, b5, b6, b7]⟩
  else if b0 = 77 ∧ b1 = 77 ∧ b2 = 0 ∧ b3 = 42 then
    some ⟨.Big, u32be [b4, b5, b6, b7]⟩
  else
    none

/-- `TiffReader::new` (src/lib.rs) applied to the 8 header bytes: parse the
header, then require `offset_to_first_ifd >= 8` (the first IFD must start
past the header), else a parse error. -/
def TiffReader.new (b0 b1 b2 b3 b4 b5 b6 b7 : Nat) : Option Header :=
  match Header.from_bytes b0 b1 b2 b3 b4 b5 b6 b7 with
  | none => none
  | some header =>
    if 8 ≤ header.offset_to_first_ifd then some header else none

/-- Modelled from the spec (§8 round-trip property): the canonical 8-byte
serialization of a header — the byte-order magic for its endianness followed
by the first-IFD offset in that byte order.  The source only parses headers;
this encoder is the spec-side counterpart used to state that parsing
round-trips against the input bytes. -/
def encode_header_bytes (h : Header) : List Nat :=
  match h.endianness with
  | .Little => [73, 73, 42, 0,
      h.offset_to_first_ifd % 256,
      h.offset_to_first_ifd / 256 % 256,
      h.offset_to_first_ifd / 65536 % 256,
      h.offset_to_first_ifd / 16777216 % 256]
  | .Big => [77, 77, 0, 42,
      h.offset_to_first_ifd / 16777216 % 256,
      h.offset_to_first_ifd / 65536 % 256,
      h.offset_to_first_ifd / 256 % 256,
      h.offset_to_first_ifd % 256]

/-- `TiffReader::read_all_ifds` (src/lib.rs), fuel-indexed: the source's
`while ifd_offset != 0` loop constructs a subfile at the current offset,
pushes it, and advances to `offset_to_next_ifd().unwrap_or(0)`.  `none`
means the loop is still running after `fuel` iterations — the loop carries
no visited-offset set or iteration bound, so exhausting every finite fuel
models divergence. -/
def TiffReader.read_all_ifds_aux (file : List Nat) (e : Endianness) :
    Nat → Nat → List Subfile → Option (RunResult (List Subfile))
  | fuel, offset, acc =>
    if offset = 0 then some (.ok acc.reverse)
    else
      match fuel with
      | 0 => none
      | fuel' + 1 =>
        match Subfile.new file e offset with
        | .ok subfile =>
          TiffReader.read_all_ifds_aux file e fuel' (subfile.offset_to_next_ifd.getD 0) (subfile :: acc)
        | .ioError => some .ioError
        | .parseError => some .parseError
        | .panicked => some .panicked

/-- `TiffReader::read_all_ifds` starting from the reader's first-IFD offset
with an empty subfile list. -/
def TiffReader.read_all_ifds (file : List Nat) (e : Endianness) (offset_to_first_ifd fuel : Nat) :
    Option (RunResult (List Subfile)) :=
  TiffReader.read_all_ifds_aux file e fuel offset_to_first_ifd []

/-- A concrete 31-byte TIFF stream: the crate's own `read_ifd` unit-test file
(src/lib.rs tests) with its final next-IFD offset changed from 0 to 13 — the
offset of the file's single IFD — so the next-IFD chain points back to an
already-visited offset. -/
def cyclicTiff : List Nat :=
  [73, 73, 42, 0, 13, 0, 0, 0,
   0, 0, 0, 0, 0,
   1, 0,
   57, 5,
   1, 0,
   3, 0, 0, 0,
   202, 254, 190, 239,
   13, 0, 0, 0]

theorem FieldType.size_of_pos (ft : FieldType) : 1 ≤ ft.size_of := by
  cases ft <;> simp [FieldType.size_of]

theorem FieldType.size_of_le_eight (ft : FieldType) : ft.size_of ≤ 8 := by
  cases ft <;> simp [FieldType.size_of]

theorem compute_value_buffer_size_eq_none_iff (usizeBits : Nat) (ft : FieldType) (count : Nat) :
    compute_value_buffer_size usizeBits ft count = none ↔
      2 ^ usizeBits ≤ count ∨ 2 ^ usizeBits ≤ ft.size_of * count := by
  unfold compute_value_buffer_size
  split_ifs with h1 h2 <;> simp <;> omega

theorem compute_value_buffer_size_some (usizeBits : Nat) (ft : FieldType) (count sz : Nat)
    (h : compute_value_buffer_size usizeBits ft count = some sz) : sz = ft.size_of * count := by
  unfold compute_value_buffer_size at h
  split_ifs at h <;> simp_all

theorem cvbs64_eq (ft : FieldType) (count : Nat) (h : count < 2 ^ 32) :
    compute_value_buffer_size 64 ft count = some (ft.size_of * count) := by
  have h8 := FieldType.size_of_le_eight ft
  have hle : ft.size_of * count ≤ 8 * count := Nat.mul_le_mul_right _ h8
  have hc : count < 2 ^ 64 := by omega
  have hp : ft.size_of * count < 2 ^ 64 := by omega
  unfold compute_value_buffer_size
  rw [if_pos hc, if_pos hp]

theorem read_exact_length (file : List Nat) (offset n : Nat) (buf : List Nat)
    (h : read_exact file offset n = some buf) : buf.length = n := by
  unfold read_exact at h
  split_ifs at h with hle
  obtain rfl := Option.some.inj h
  simp only [List.length_take, List.length_drop]
  omega

theorem chunksExactAux_eq (s : Nat) :
    ∀ (count fuel : Nat) (l : List Nat), l.length = s * count → 1 ≤ s → count ≤ fuel →
      chunksExactAux s fuel l = chunksOfCnt s count l := by
  intro count
  induction count with
  | zero =>
    intro fuel l hl hs _
    have hl0 : l.length = 0 := by simpa using hl
    cases fuel with
    | zero => rfl
    | succ f =>
      rw [chunksExactAux, if_pos (Or.inr (by omega))]
      rfl
  | succ n ih =>
    intro fuel l hl hs hf
    cases fuel with
    | zero => omega
    | succ f =>
      have hge : s ≤ l.length := by
        have : s * 1 ≤ s * (n + 1) := Nat.mul_le_mul_left s (by omega)
        omega
      have hcond : ¬ (s = 0 ∨ l.length < s) := by omega
      rw [chunksExactAux, if_neg hcond]
      show l.take s :: chunksExactAux s f (l.drop s) = chunksOfCnt s (n + 1) l
      rw [chunksOfCnt]
      congr 1
      apply ih f (l.drop s) _ hs (by omega)
      simp [List.length_drop]
      calc l.length - s = s * (n + 1) - s := by omega
      _ = s * n := by rw [Nat.mul_succ]; omega

theorem chunksExact_eq_chunksOfCnt (s count : Nat) (l : List Nat)
    (hl : l.length = s * count) (hs : 1 ≤ s) :
    chunksExact s l = chunksOfCnt s count l := by
  apply chunksExactAux_eq s count l.length l hl hs
  rw [hl]
  calc count = 1 * count := (Nat.one_mul count).symm
  _ ≤ s * count := Nat.mul_le_mul_right count hs

theorem chunksOfCnt_length (s : Nat) :
    ∀ (n : Nat) (l : List Nat), (chunksOfCnt s n l).length = n := by
  intro n
  induction n with
  | zero => intro l; simp [chunksOfCnt]
  | succ m ih => intro l; simp [chunksOfCnt, ih]

theorem chunksOfCnt_get (s : Nat) :
    ∀ (n i : Nat) (l : List Nat), i < n →
      (chunksOfCnt s n l).get? i = some ((l.drop (s * i)).take s) := by
  intro n
  induction n with
  | zero => intro i l hi; omega
  | succ m ih =>
    intro i l hi
    cases i with
    | zero => simp [chunksOfCnt]
    | succ j =>
      rw [chunksOfCnt]
      show (chunksOfCnt s m (l.drop s)).get? j = _
      rw [ih j (l.drop s) (by omega), List.drop_drop]
      have harith : s * j + s = s * (j + 1) := (Nat.mul_succ s j).symm
      rw [show s * Nat.succ j = s * (j + 1) from rfl, ← harith, Nat.add_comm s (s * j)]

theorem value_from_chunks_count (ft : FieldType) (chunks : List (List Nat)) (e : Endianness) :
    (value_from_chunks ft chunks e).count = chunks.length := by
  cases ft <;> simp [value_from_chunks, FieldValue.count]

theorem value_from_chunks_field_type (ft : FieldType) (chunks : List (List Nat)) (e : Endianness) :
    (value_from_chunks ft chunks e).field_type = ft := by
  cases ft <;> simp [value_from_chunks, FieldValue.field_type]

theorem value_from_buffer_ok64 (ft : FieldType) (count : Nat) (buffer : List Nat) (e : Endianness)
    (hc : count < 2 ^ 32) (hlen : buffer.length = ft.size_of * count) :
    value_from_buffer 64 ft count buffer e =
      .ok (value_from_chunks ft (chunksExact ft.size_of buffer) e) := by
  unfold value_from_buffer
  rw [cvbs64_eq ft count hc]
  simp [hlen]

theorem value_from_buffer_ok_elim (usizeBits : Nat) (ft : FieldType) (count : Nat)
    (buffer : List Nat) (e : Endianness) (v : FieldValue)
    (h : value_from_buffer usizeBits ft count buffer e = .ok v) :
    buffer.length = ft.size_of * count ∧
      v = value_from_chunks ft (chunksExact ft.size_of buffer) e := by
  unfold value_from_buffer at h
  split at h
  · exact RunResult.noConfusion h
  · rename_i sz hs
    have hsz := compute_value_buffer_size_some usizeBits ft count sz hs
    split at h
    · rename_i hb
      exact ⟨by omega, (RunResult.ok.inj h).symm⟩
    · exact RunResult.noConfusion h

theorem value_from_buffer_count (usizeBits : Nat) (ft : FieldType) (count : Nat)
    (buffer : List Nat) (e : Endianness) (v : FieldValue)
    (h : value_from_buffer usizeBits ft count buffer e = .ok v) : v.count = count := by
  obtain ⟨hlen, hv⟩ := value_from_buffer_ok_elim usizeBits ft count buffer e v h
  subst hv
  rw [value_from_chunks_count,
    chunksExact_eq_chunksOfCnt ft.size_of count buffer hlen (FieldType.size_of_pos ft),
    chunksOfCnt_length]

theorem value_from_buffer_field_type (usizeBits : Nat) (ft : FieldType) (count : Nat)
    (buffer : List Nat) (e : Endianness) (v : FieldValue)
    (h : value_from_buffer usizeBits ft count buffer e = .ok v) : v.field_type = ft := by
  obtain ⟨_, hv⟩ := value_from_buffer_ok_elim usizeBits ft count buffer e v h
  subst hv
  exact value_from_chunks_field_type ft _ e

theorem FieldType.from_u16_eq_none (raw : Nat) (h : raw < 1 ∨ 12 < raw) :
    FieldType.from_u16 raw = none := by
  unfold FieldType.from_u16
  rw [if_neg (by omega : ¬ raw = 1), if_neg (by omega : ¬ raw = 2),
    if_neg (by omega : ¬ raw = 3), if_neg (by omega : ¬ raw = 4),
    if_neg (by omega : ¬ raw = 5), if_neg (by omega : ¬ raw = 6),
    if_neg (by omega : ¬ raw = 7), if_neg (by omega : ¬ raw = 8),
    if_neg (by omega : ¬ raw = 9), if_neg (by omega : ¬ raw = 10),
    if_neg (by omega : ¬ raw = 11), if_neg (by omega : ¬ raw = 12)]

/-- Claim C6: for every host width, field type and count, `buffer_size`
(`compute_value_buffer_size`) is a total function that returns `None` exactly
when `count` does not fit the host address width or `count * element_size`
overflows the maximum representable size, and any `Some` result is the exact
(unwrapped) product — it never panics and never wraps. -/
theorem claimC6_buffer_size_total_no_wrap :
    ∀ (usizeBits : Nat) (ft : FieldType) (count : Nat),
      (compute_value_buffer_size usizeBits ft count = none ↔
        2 ^ usizeBits ≤ count ∨ 2 ^ usizeBits ≤ ft.size_of * count) ∧
      ∀ sz, compute_value_buffer_size usizeBits ft count = some sz → sz = ft.size_of * count :=
  fun usizeBits ft count =>
    ⟨compute_value_buffer_size_eq_none_iff usizeBits ft count,
     fun sz h => compute_value_buffer_size_some usizeBits ft count sz h⟩

theorem claimC6_witness : compute_value_buffer_size 8 FieldType.Double 100 = none :=
  (claimC6_buffer_size_total_no_wrap 8 FieldType.Double 100).1.mpr (Or.inr (by decide))

/-- Claim C10: on a 64-bit host, `compute_value_buffer_size` returns `Some`
(the exact product) for every field type and every u32 count, so the
overflow ⇒ fatal-parse-error paths cannot trigger: field construction
(`from_ifd_entry_data`) always succeeds, and `load` on a `NotLoaded` field
can only fail as an I/O error. -/
theorem claimC10_no_overflow_on_64bit (ft : FieldType) (count raw offset : Nat)
    (b : List Nat) (file : List Nat) (e : Endianness)
    (hcount : count < 2 ^ 32) (hb : b.length = 4) :
    compute_value_buffer_size 64 ft count = some (ft.size_of * count) ∧
    (∃ s, FieldState.from_ifd_entry_data raw count b e = .ok s) ∧
    (Field.load file e (.NotLoaded ft count offset) = .ioError ∨
      ∃ v, Field.load file e (.NotLoaded ft count offset) = .ok (.Loaded v offset)) := by
  refine ⟨cvbs64_eq ft count hcount, ?_, ?_⟩
  · unfold FieldState.from_ifd_entry_data
    cases hu : FieldType.from_u16 raw with
    | none => exact ⟨_, rfl⟩
    | some ft2 =>
      simp only [cvbs64_eq ft2 count hcount]
      by_cases hle : ft2.size_of * count ≤ 4
      · rw [if_pos hle]
        have hlen : (b.take (ft2.size_of * count)).length = ft2.size_of * count := by
          simp only [List.length_take]
          omega
        simp only [value_from_buffer_ok64 ft2 count _ e hcount hlen]
        exact ⟨_, rfl⟩
      · rw [if_neg hle]
        exact ⟨_, rfl⟩
  · cases hr : read_exact file offset (ft.size_of * count) with
    | none =>
      refine Or.inl ?_
      unfold Field.load
      simp only [cvbs64_eq ft count hcount, hr]
    | some buf =>
      have hlen : buf.length = ft.size_of * count :=
        read_exact_length file offset _ buf hr
      refine Or.inr ⟨value_from_chunks ft (chunksExact ft.size_of buf) e, ?_⟩
      unfold Field.load
      simp only [cvbs64_eq ft count hcount, hr,
        value_from_buffer_ok64 ft count buf e hcount hlen]

theorem claimC10_witness :
    compute_value_buffer_size 64 FieldType.Double 5 = some 40 ∧
    (∃ s, FieldState.from_ifd_entry_data 1 5 [0, 0, 0, 0] Endianness.Little = .ok s) ∧
    (Field.load [] Endianness.Little (.NotLoaded FieldType.Double 5 0) = .ioError ∨
      ∃ v, Field.load [] Endianness.Little (.NotLoaded FieldType.Double 5 0) = .ok (.Loaded v 0)) :=
  claimC10_no_overflow_on_64bit FieldType.Double 5 1 0 [0, 0, 0, 0] [] Endianness.Little
    (by decide) rfl

/-- Claim C9: every successful decode returns a value collection whose
element count equals the count declared in the directory entry, for all
field types, buffers, endiannesses and host widths. -/
theorem claimC9_decode_count_matches (usizeBits : Nat) (ft : FieldType) (count : Nat)
    (buffer : List Nat) (e : Endianness) (v : FieldValue)
    (h : value_from_buffer usizeBits ft count buffer e = .ok v) :
    v.count = count :=
  value_from_buffer_count usizeBits ft count buffer e v h

theorem claimC9_witness : FieldValue.count (FieldValue.Byte [202, 254, 190]) = 3 :=
  claimC9_decode_count_matches 64 FieldType.Byte 3 [202, 254, 190] Endianness.Little
    (FieldValue.Byte [202, 254, 190]) (by decide)

/-- Claim C2 counterexample: decoding FieldType Byte with declared count 1
against an empty buffer (length 0 ≠ buffer_size 1) makes `value_from_buffer`
PANIC through its `assert_eq!` — the mismatch is not surfaced to the caller
as the typed `ParseError` result the claim asserts. -/
theorem claimC2_counterexample :
    value_from_buffer 64 FieldType.Byte 1 [] Endianness.Little = .panicked ∧
    value_from_buffer 64 FieldType.Byte 1 [] Endianness.Little ≠ .parseError := by
  constructor
  · decide
  · decide

/-- Claim C2 as amended: a buffer whose length differs from
`buffer_size(field_type, count)` is indeed a hard error that never silently
truncates or pads — decode never returns a value on such a buffer — but it
surfaces as an assertion PANIC, not as a typed result; only the
buffer-size-overflow case (`buffer_size = None`) is returned to the caller
as the typed parse error. -/
theorem claimC2_amended_mismatch_panics (usizeBits : Nat) (ft : FieldType) (count : Nat)
    (buffer : List Nat) (e : Endianness) :
    (∀ sz, compute_value_buffer_size usizeBits ft count = some sz → buffer.length ≠ sz →
      value_from_buffer usizeBits ft count buffer e = .panicked) ∧
    (compute_value_buffer_size usizeBits ft count = none →
      value_from_buffer usizeBits ft count buffer e = .parseError) ∧
    (∀ v, value_from_buffer usizeBits ft count buffer e = .ok v →
      buffer.length = ft.size_of * count) := by
  refine ⟨?_, ?_, ?_⟩
  · intro sz hs hne
    unfold value_from_buffer
    rw [hs]
    exact if_neg hne
  · intro hn
    unfold value_from_buffer
    rw [hn]
  · intro v h
    exact (value_from_buffer_ok_elim usizeBits ft count buffer e v h).1

theorem claimC2_witness :
    value_from_buffer 64 FieldType.Short 2 [1, 2, 3] Endianness.Little = .panicked :=
  (claimC2_amended_mismatch_panics 64 FieldType.Short 2 [1, 2, 3] Endianness.Little).1 4
    (by decide) (by decide)

/-- Claim C3: at Subfile construction, a directory entry with a recognized
field type becomes `Local` — decoded right away from the 4 inline bytes by a
function that takes no byte source, so no I/O can occur — exactly when
`buffer_size(field_type, count) ≤ 4`; otherwise it becomes `NotLoaded` whose
offset is the 4 inline bytes read as a u32 in the file's endianness. -/
theorem claimC3_inline_local_else_notloaded (raw count : Nat) (b : List Nat) (e : Endianness)
    (ft : FieldType) (sz : Nat)
    (hb : b.length = 4)
    (hft : FieldType.from_u16 raw = some ft)
    (hsz : compute_value_buffer_size 64 ft count = some sz) :
    (sz ≤ 4 →
      ∃ v, value_from_buffer 64 ft count (b.take sz) e = .ok v ∧
        FieldState.from_ifd_entry_data raw count b e = .ok (.Local v)) ∧
    (4 < sz →
      FieldState.from_ifd_entry_data raw count b e = .ok (.NotLoaded ft count (u32e e b))) := by
  have hsz2 := compute_value_buffer_size_some 64 ft count sz hsz
  constructor
  · intro hle
    have hlen : (b.take sz).length = ft.size_of * count := by
      simp only [List.length_take]
      omega
    have hok := value_from_buffer_ok64 ft count (b.take sz) e
      (by
        have := FieldType.size_of_pos ft
        have : count ≤ 1 * count := by omega
        have hcc : count ≤ ft.size_of * count := le_trans this (Nat.mul_le_mul_right count (FieldType.size_of_pos ft))
        omega)
      hlen
    refine ⟨_, hok, ?_⟩
    unfold FieldState.from_ifd_entry_data
    simp only [hft, hsz, if_pos hle, hok]
  · intro hgt
    unfold FieldState.from_ifd_entry_data
    simp only [hft, hsz, if_neg (by omega : ¬ sz ≤ 4)]

theorem claimC3_witness :
    ∃ v, value_from_buffer 64 FieldType.Short 2 ([1, 0, 0, 1].take 4) Endianness.Little = .ok v ∧
      FieldState.from_ifd_entry_data 3 2 [1, 0, 0, 1] Endianness.Little = .ok (.Local v) :=
  (claimC3_inline_local_else_notloaded 3 2 [1, 0, 0, 1] Endianness.Little FieldType.Short 4
    rfl (by decide) (by decide)).1 (by decide)

/-- Claim C8: a type code outside 1–12 yields the terminal `Unknown` state
(not an error): the inline bytes are kept verbatim and never decoded,
`field_type()` is `None` on it, and `load`, `unload` and `get_value` neither
move it to another state nor report any failure. -/
theorem claimC8_unknown_terminal (raw count : Nat) (b : List Nat) (file : List Nat)
    (e : Endianness) (hraw : raw < 1 ∨ 12 < raw) :
    FieldState.from_ifd_entry_data raw count b e = .ok (.Unknown raw count b) ∧
    Field.field_type (.Unknown raw count b) = none ∧
    Field.load file e (.Unknown raw count b) = .ok (.Unknown raw count b) ∧
    Field.unload (.Unknown raw count b) = .Unknown raw count b ∧
    Field.get_value file e (.Unknown raw count b) = .ok (none, .Unknown raw count b) := by
  have hu := FieldType.from_u16_eq_none raw hraw
  refine ⟨?_, rfl, rfl, rfl, rfl⟩
  unfold FieldState.from_ifd_entry_data
  simp only [hu]

theorem claimC8_witness :
    FieldState.from_ifd_entry_data 9999 7 [222, 173, 190, 239] Endianness.Big =
      .ok (.Unknown 9999 7 [222, 173, 190, 239]) ∧
    Field.field_type (.Unknown 9999 7 [222, 173, 190, 239]) = none ∧
    Field.load [] Endianness.Big (.Unknown 9999 7 [222, 173, 190, 239]) =
      .ok (.Unknown 9999 7 [222, 173, 190, 239]) ∧
    Field.unload (.Unknown 9999 7 [222, 173, 190, 239]) = .Unknown 9999 7 [222, 173, 190, 239] ∧
    Field.get_value [] Endianness.Big (.Unknown 9999 7 [222, 173, 190, 239]) =
      .ok (none, .Unknown 9999 7 [222, 173, 190, 239]) :=
  claimC8_unknown_terminal 9999 7 [222, 173, 190, 239] [] Endianness.Big (Or.inr (by decide))

/-- Claim C7: decoding is endianness-correct and order-preserving.  A Short
buffer `[0x01, 0x00]` decodes to 1 little-endian and 256 big-endian; for
every one of the twelve types a successful decode of a correctly sized
buffer is exactly the per-element decode mapped over the buffer's
`chunks_exact` sequence in order; and chunk `i` of that sequence is
precisely bytes `i * element_size .. (i + 1) * element_size` of the buffer —
elements are never reordered. -/
theorem claimC7_endianness_and_chunk_order :
    value_from_buffer 64 FieldType.Short 1 [1, 0] Endianness.Little = .ok (.Short [1]) ∧
    value_from_buffer 64 FieldType.Short 1 [1, 0] Endianness.Big = .ok (.Short [256]) ∧
    (∀ count buffer e, count < 2 ^ 32 → List.length buffer = 1 * count →
      value_from_buffer 64 FieldType.Byte count buffer e =
        .ok (.Byte ((chunksExact 1 buffer).map byte_elem))) ∧
    (∀ count buffer e, count < 2 ^ 32 → List.length buffer = 1 * count →
      value_from_buffer 64 FieldType.Ascii count buffer e =
        .ok (.Ascii ((chunksExact 1 buffer).map byte_elem))) ∧
    (∀ count buffer e, count < 2 ^ 32 → List.length buffer = 2 * count →
      value_from_buffer 64 FieldType.Short count buffer e =
        .ok (.Short ((chunksExact 2 buffer).map (u16e e)))) ∧
    (∀ count buffer e, count < 2 ^ 32 → List.length buffer = 4 * count →
      value_from_buffer 64 FieldType.Long count buffer e =
        .ok (.Long ((chunksExact 4 buffer).map (u32e e)))) ∧
    (∀ count buffer e, count < 2 ^ 32 → List.length buffer = 8 * count →
      value_from_buffer 64 FieldType.Rational count buffer e =
        .ok (.Rational ((chunksExact 8 buffer).map (rational_elem e)))) ∧
    (∀ count buffer e, count < 2 ^ 32 → List.length buffer = 1 * count →
      value_from_buffer 64 FieldType.SByte count buffer e =
        .ok (.SByte ((chunksExact 1 buffer).map sbyte_elem))) ∧
    (∀ count buffer e, count < 2 ^ 32 → List.length buffer = 1 * count →
      value_from_buffer 64 FieldType.Undefined count buffer e =
        .ok (.Undefined ((chunksExact 1 buffer).map byte_elem))) ∧
    (∀ count buffer e, count < 2 ^ 32 → List.length buffer = 2 * count →
      value_from_buffer 64 FieldType.SShort count buffer e =
        .ok (.SShort ((chunksExact 2 buffer).map (i16e e)))) ∧
    (∀ count buffer e, count < 2 ^ 32 → List.length buffer = 4 * count →
      value_from_buffer 64 FieldType.SLong count buffer e =
        .ok (.SLong ((chunksExact 4 buffer).map (i32e e)))) ∧
    (∀ count buffer e, count < 2 ^ 32 → List.length buffer = 8 * count →
      value_from_buffer 64 FieldType.SRational count buffer e =
        .ok (.SRational ((chunksExact 8 buffer).map (srational_elem e)))) ∧
    (∀ count buffer e, count < 2 ^ 32 → List.length buffer = 4 * count →
      value_from_buffer 64 FieldType.Float count buffer e =
        .ok (.Float ((chunksExact 4 buffer).map (u32e e)))) ∧
    (∀ count buffer e, count < 2 ^ 32 → List.length buffer = 8 * count →
      value_from_buffer 64 FieldType.Double count buffer e =
        .ok (.Double ((chunksExact 8 buffer).map (u64e e)))) ∧
    (∀ s n l i, 1 ≤ s → List.length l = s * n → i < n →
      (chunksExact s l).get? i = some ((l.drop (s * i)).take s)) := by
  refine ⟨by decide, by decide, ?_, ?_, ?_, ?_, ?_, ?_, ?_, ?_, ?_, ?_, ?_, ?_, ?_⟩
  case _ => exact fun count buffer e hc hl => value_from_buffer_ok64 FieldType.Byte count buffer e hc hl
  case _ => exact fun count buffer e hc hl => value_from_buffer_ok64 FieldType.Ascii count buffer e hc hl
  case _ => exact fun count buffer e hc hl => value_from_buffer_ok64 FieldType.Short count buffer e hc hl
  case _ => exact fun count buffer e hc hl => value_from_buffer_ok64 FieldType.Long count buffer e hc hl
  case _ => exact fun count buffer e hc hl => value_from_buffer_ok64 FieldType.Rational count buffer e hc hl
  case _ => exact fun count buffer e hc hl => value_from_buffer_ok64 FieldType.SByte count buffer e hc hl
  case _ => exact fun count buffer e hc hl => value_from_buffer_ok64 FieldType.Undefined count buffer e hc hl
  case _ => exact fun count buffer e hc hl => value_from_buffer_ok64 FieldType.SShort count buffer e hc hl
  case _ => exact fun count buffer e hc hl => value_from_buffer_ok64 FieldType.SLong count buffer e hc hl
  case _ => exact fun count buffer e hc hl => value_from_buffer_ok64 FieldType.SRational count buffer e hc hl
  case _ => exact fun count buffer e hc hl => value_from_buffer_ok64 FieldType.Float count buffer e hc hl
  case _ => exact fun count buffer e hc hl => value_from_buffer_ok64 FieldType.Double count buffer e hc hl
  case _ =>
    intro s n l i hs hl hi
    rw [chunksExact_eq_chunksOfCnt s n l hl hs]
    exact chunksOfCnt_get s n i l hi

theorem claimC7_witness :
    value_from_buffer 64 FieldType.Long 2 [1, 0, 0, 0, 2, 0, 0, 0] Endianness.Little =
      .ok (.Long ((chunksExact 4 [1, 0, 0, 0, 2, 0, 0, 0]).map (u32e Endianness.Little))) :=
  claimC7_endianness_and_chunk_order.2.2.2.2.2.1 2 [1, 0, 0, 0, 2, 0, 0, 0] Endianness.Little
    (by decide) (by decide)

/-- Claim C5: reader construction from the 8 header bytes fails exactly when
the first 4 bytes match neither byte-order magic or the decoded first-IFD
offset is below 8; and every accepted header's detected endianness and
first-IFD offset re-serialize to exactly the 8 input bytes. -/
theorem claimC5_header_accept_iff_and_roundtrip (b0 b1 b2 b3 b4 b5 b6 b7 : Nat)
    (h4 : b4 < 256) (h5 : b5 < 256) (h6 : b6 < 256) (h7 : b7 < 256) :
    (TiffReader.new b0 b1 b2 b3 b4 b5 b6 b7 = none ↔
      ¬ ((b0 = 73 ∧ b1 = 73 ∧ b2 = 42 ∧ b3 = 0) ∧ 8 ≤ u32le [b4, b5, b6, b7] ∨
         (b0 = 77 ∧ b1 = 77 ∧ b2 = 0 ∧ b3 = 42) ∧ 8 ≤ u32be [b4, b5, b6, b7])) ∧
    (∀ hd : Header, TiffReader.new b0 b1 b2 b3 b4 b5 b6 b7 = some hd →
      encode_header_bytes hd = [b0, b1, b2, b3, b4, b5, b6, b7]) := by
  unfold TiffReader.new Header.from_bytes
  by_cases hA : b0 = 73 ∧ b1 = 73 ∧ b2 = 42 ∧ b3 = 0
  · have hB : ¬ (b0 = 77 ∧ b1 = 77 ∧ b2 = 0 ∧ b3 = 42) := by
      intro hB
      omega
    rw [if_pos hA]
    by_cases hoff : 8 ≤ u32le [b4, b5, b6, b7]
    · constructor
      · simp only [if_pos hoff]
        constructor
        · intro h
          exact Option.noConfusion h
        · intro hcon
          exact absurd (Or.inl ⟨hA, hoff⟩) hcon
      · intro hd hsome
        simp only [if_pos hoff] at hsome
        obtain rfl := Option.some.inj hsome
        obtain ⟨e0, e1, e2, e3⟩ := hA
        subst e0
        subst e1
        subst e2
        subst e3
        simp only [encode_header_bytes]
        simp [u32le, byteAt, List.cons.injEq]
        omega
    · constructor
      · simp only [if_neg hoff]
        constructor
        · intro _
          intro hcon
          rcases hcon with ⟨_, hoff2⟩ | ⟨hB2, _⟩
          · exact hoff hoff2
          · exact hB hB2
        · intro _
          trivial
      · intro hd hsome
        simp only [if_neg hoff] at hsome
        exact Option.noConfusion hsome
  · rw [if_neg hA]
    by_cases hB : b0 = 77 ∧ b1 = 77 ∧ b2 = 0 ∧ b3 = 42
    · rw [if_pos hB]
      by_cases hoff : 8 ≤ u32be [b4, b5, b6, b7]
      · constructor
        · simp only [if_pos hoff]
          constructor
          · intro h
            exact Option.noConfusion h
          · intro hcon
            exact absurd (Or.inr ⟨hB, hoff⟩) hcon
        · intro hd hsome
          simp only [if_pos hoff] at hsome
          obtain rfl := Option.some.inj hsome
          obtain ⟨e0, e1, e2, e3⟩ := hB
          subst e0
          subst e1
          subst e2
          subst e3
          simp only [encode_header_bytes]
          simp [u32be, byteAt, List.cons.injEq]
          omega
      · constructor
        · simp only [if_neg hoff]
          constructor
          · intro _
            intro hcon
            rcases hcon with ⟨hA2, _⟩ | ⟨_, hoff2⟩
            · exact hA hA2
            · exact hoff hoff2
          · intro _
            trivial
        · intro hd hsome
          simp only [if_neg hoff] at hsome
          exact Option.noConfusion hsome
    · rw [if_neg hB]
      constructor
      · constructor
        · intro _
          intro hcon
          rcases hcon with ⟨hA2, _⟩ | ⟨hB2, _⟩
          · exact hA hA2
          · exact hB hB2
        · intro _
          rfl
      · intro hd hsome
        exact Option.noConfusion hsome

theorem claimC5_witness :
    encode_header_bytes ⟨Endianness.Little, 1234567890⟩ = [73, 73, 42, 0, 210, 2, 150, 73] :=
  (claimC5_header_accept_iff_and_roundtrip 73 73 42 0 210 2 150 73
    (by decide) (by decide) (by decide) (by decide)).2 ⟨Endianness.Little, 1234567890⟩ (by decide)

/-- Claim C4: over an unchanging byte source, a `NotLoaded` field that loads
successfully can be unloaded — returning exactly to
`NotLoaded {field_type, count, offset}` with the original type, count and
offset — and a second `load` reproduces the identical decoded value; and
`unload` is a no-op on every state other than `Loaded`. -/
theorem claimC4_load_unload_load_roundtrip (file : List Nat) (e : Endianness)
    (ft : FieldType) (count offset : Nat) (v : FieldValue)
    (h : Field.load file e (.NotLoaded ft count offset) = .ok (.Loaded v offset)) :
    Field.unload (.Loaded v offset) = .NotLoaded ft count offset ∧
    Field.load file e (Field.unload (.Loaded v offset)) = .ok (.Loaded v offset) ∧
    ∀ s : FieldState, (∀ w o, s ≠ .Loaded w o) → Field.unload s = s := by
  have key : v.field_type = ft ∧ v.count = count := by
    cases hs : compute_value_buffer_size 64 ft count with
    | none =>
      unfold Field.load at h
      simp only [hs] at h
      exact RunResult.noConfusion h
    | some sz =>
      cases hr : read_exact file offset sz with
      | none =>
        unfold Field.load at h
        simp only [hs, hr] at h
        exact RunResult.noConfusion h
      | some buf =>
        cases hv : value_from_buffer 64 ft count buf e with
        | ok w =>
          unfold Field.load at h
          simp only [hs, hr, hv, RunResult.ok.injEq, FieldState.Loaded.injEq] at h
          have hw : w = v := by simpa using h
          subst hw
          exact ⟨value_from_buffer_field_type 64 ft count buf e w hv,
            value_from_buffer_count 64 ft count buf e w hv⟩
        | ioError =>
          unfold Field.load at h
          simp only [hs, hr, hv] at h
          exact RunResult.noConfusion h
        | parseError =>
          unfold Field.load at h
          simp only [hs, hr, hv] at h
          exact RunResult.noConfusion h
        | panicked =>
          unfold Field.load at h
          simp only [hs, hr, hv] at h
          exact RunResult.noConfusion h
  obtain ⟨hft, hcnt⟩ := key
  have hu : Field.unload (.Loaded v offset) = .NotLoaded ft count offset := by
    unfold Field.unload
    simp only [hft, hcnt]
  refine ⟨hu, by rw [hu]; exact h, ?_⟩
  intro s hs
  cases s with
  | Local v2 => rfl
  | NotLoaded ft2 count2 offset2 => rfl
  | Loaded v2 offset2 => exact absurd rfl (hs v2 offset2)
  | Unknown raw2 count2 b2 => rfl

theorem claimC4_witness :
    Field.unload (.Loaded (FieldValue.Rational [(1, 2)]) 0) =
      .NotLoaded FieldType.Rational 1 0 ∧
    Field.load [1, 0, 0, 0, 2, 0, 0, 0] Endianness.Little
        (Field.unload (.Loaded (FieldValue.Rational [(1, 2)]) 0)) =
      .ok (.Loaded (FieldValue.Rational [(1, 2)]) 0) ∧
    Field.unload (.Local (FieldValue.Byte [7])) = .Local (FieldValue.Byte [7]) := by
  have h := claimC4_load_unload_load_roundtrip [1, 0, 0, 0, 2, 0, 0, 0] Endianness.Little
    FieldType.Rational 1 0 (FieldValue.Rational [(1, 2)]) (by decide)
  exact ⟨h.1, h.2.1, h.2.2 (.Local (FieldValue.Byte [7])) (fun w o hw => FieldState.noConfusion hw)⟩

theorem cyclic_subfile_parse :
    Subfile.new cyclicTiff Endianness.Little 13 =
      .ok ⟨[(1337, .Local (.Byte [202, 254, 190]))], some 13⟩ := by decide

theorem cyclic_read_all_ifds_aux_none :
    ∀ (fuel : Nat) (acc : List Subfile),
      TiffReader.read_all_ifds_aux cyclicTiff Endianness.Little fuel 13 acc = none := by
  intro fuel
  induction fuel with
  | zero =>
    intro acc
    rw [TiffReader.read_all_ifds_aux]
    norm_num
  | succ f ih =>
    intro acc
    rw [TiffReader.read_all_ifds_aux]
    simp only [cyclic_subfile_parse]
    norm_num
    exact ih _

/-- Claim C1: the claim that `read_all_ifds` terminates on every byte stream
is violated by the code: the `while ifd_offset != 0` loop in src/lib.rs has
no visited-offset set and no iteration bound, so on a stream whose single
IFD names its own offset (13) as the next IFD — a stream the reader accepts
and whose IFD parses successfully — the traversal never stops: for every
iteration bound `fuel` the fuel-indexed loop is still running (`none`),
instead of surfacing a structural error on the revisited offset. -/
theorem claimC1_read_all_ifds_cycle_diverges :
    TiffReader.new 73 73 42 0 13 0 0 0 = some ⟨Endianness.Little, 13⟩ ∧
    Subfile.new cyclicTiff Endianness.Little 13 =
      .ok ⟨[(1337, .Local (.Byte [202, 254, 190]))], some 13⟩ ∧
    ∀ fuel, TiffReader.read_all_ifds cyclicTiff Endianness.Little 13 fuel = none :=
  ⟨by decide, cyclic_subfile_parse, fun fuel => cyclic_read_all_ifds_aux_none fuel []⟩
